import Mathlib

/-!
Shallow embedding of the nixd completion subsystem
(src/nixd/lib/Controller/Completion.cpp) and of the diagnostic message
formatter (src/libnixf/src/Basic/Diagnostic.cpp).

Embedding conventions: C++ functions become Lean functions; the item
vector that the C++ code mutates by reference is passed and returned
explicitly; the C++ exception `ExceedSizeError` becomes the error branch
of `Except`, whose error value carries the vector's contents at throw
time (the real vector is mutated in place, so it keeps the items already
pushed while the exception propagates to the catch in `onCompletion`).
-/

/-- Upper bound on completion list sizes (`MaxCompletionSize`). -/
def MaxCompletionSize : Nat := 30

/-- Completion item kinds used by this subsystem (LSP enum). -/
inductive CompletionItemKind where
  | Keyword
  | Variable
  | Field
deriving DecidableEq

/-- LSP markup kinds. -/
inductive MarkupKind where
  | PlainText
  | Markdown
deriving DecidableEq

/-- LSP markup content. -/
structure MarkupContent where
  kind : MarkupKind
  value : String
deriving DecidableEq

/-- LSP completion item (the fields this subsystem reads or writes).
`detail` and `data` are `std::string` in lspserver (empty = unset),
`documentation` is `std::optional<MarkupContent>`. -/
structure CompletionItem where
  label : String := ""
  kind : CompletionItemKind := .Variable
  detail : String := ""
  documentation : Option MarkupContent := none
  data : String := ""
deriving DecidableEq

/-- LSP completion list. -/
structure CompletionList where
  isIncomplete : Bool := false
  items : List CompletionItem := []
deriving DecidableEq

/-- A bound name produced by the variable-lookup analysis; the
completion code only consults its `isBuiltin` flag. -/
structure Definition where
  isBuiltin : Bool
deriving DecidableEq

/-- One scope's own ordered name→definition entries
(`EnvNode::defs()`). -/
abbrev ScopeDefs := List (String × Definition)

/-- The lexical environment chain reachable from a node, innermost scope
first.  An `EnvNode` is a scope plus a weak parent pointer; the chain of
parent pointers becomes the list tail, and the null pointer that ends
the chain becomes `[]`. -/
abbrev EnvChain := List ScopeDefs

/-- `std::string::starts_with`. -/
def strStartsWith (s pre : String) : Bool :=
  pre.data.isPrefixOf s.data

/-- `addItem`: push one item, or signal `ExceedSizeError` when the list
already holds `MaxCompletionSize` items.  The error value carries the
vector's (unchanged) contents. -/
def addItem (Items : List CompletionItem) (Item : CompletionItem) :
    Except (List CompletionItem) (List CompletionItem) :=
  if MaxCompletionSize ≤ Items.length then .error Items
  else .ok (Items ++ [Item])

/-- `VLACompletionProvider::getCompletionItemKind`. -/
def getCompletionItemKind (Def : Definition) : CompletionItemKind :=
  if Def.isBuiltin then .Keyword else .Variable

/-- One iteration of the loop body of
`VLACompletionProvider::collectDef`: names starting with `__` are nix
internals and are skipped; a name starting with the query text is added
as a completion item. -/
def collectEntry (Pfx : String) (Items : List CompletionItem)
    (e : String × Definition) :
    Except (List CompletionItem) (List CompletionItem) :=
  if strStartsWith e.1 "__" then .ok Items
  else if strStartsWith e.1 Pfx then
    addItem Items { label := e.1, kind := getCompletionItemKind e.2 }
  else .ok Items

/-- `VLACompletionProvider::collectDef`: a null environment collects
nothing; otherwise visit the parent scope first, then this scope's own
bindings. -/
def collectDef (Env : EnvChain) (Pfx : String)
    (Items : List CompletionItem) :
    Except (List CompletionItem) (List CompletionItem) :=
  match Env with
  | [] => .ok Items
  | ds :: parent => do
    let Items1 ← collectDef parent Pfx Items
    ds.foldlM (collectEntry Pfx) Items1

/-- The AST node kinds this subsystem distinguishes; only
`NK_Identifer` (the source's spelling) is treated specially. -/
inductive NodeKind where
  | NK_Identifer
  | NK_ExprVar
  | NK_ExprString
  | NK_ExprAttrs
deriving DecidableEq

/-- An AST node, reduced to what the completion code inspects: its kind
and, for identifiers, the literal text `Identifier::name()`. -/
inductive Node where
  | Identifer (name : String)
  | ExprVar (name : String)
  | ExprString (s : String)
  | ExprAttrs
deriving DecidableEq

/-- `Node::kind()`. -/
def Node.kind : Node → NodeKind
  | .Identifer _ => .NK_Identifer
  | .ExprVar _ => .NK_ExprVar
  | .ExprString _ => .NK_ExprString
  | .ExprAttrs => .NK_ExprAttrs

/-- The query text `VLACompletionProvider::complete` derives from the
node under the cursor: the literal identifier text for `NK_Identifer`
nodes, the empty string (accept everything) otherwise. -/
def vlaPfx (Desc : Node) : String :=
  match Desc with
  | .Identifer name => name
  | _ => ""

/-- `VLACompletionProvider::complete`; `Env` stands for the environment
chain `upEnv(Desc, VLA, PM)` computed by the external variable-lookup
analysis. -/
def VLACompletionProvider.complete (Desc : Node)
    (Items : List CompletionItem) (Env : EnvChain) :
    Except (List CompletionItem) (List CompletionItem) :=
  collectDef Env (vlaPfx Desc) Items

/-- Errors reported by the external nixpkgs evaluator (`llvm::Error`,
rendered as text). -/
def EvalError : Type := String

/-- `AttrPathCompleteParams`: the query sent to the external evaluator.
The source names the second field `Prefix`; it is called `Pfx` here. -/
structure AttrPathCompleteParams where
  Scope : List String
  Pfx : String
deriving DecidableEq

/-- JSON values, as produced by the (external) `llvm::json` library. -/
inductive JSONValue where
  | null
  | bool (b : Bool)
  | num (n : Int)
  | str (s : String)
  | arr (elems : List JSONValue)
  | obj (fields : List (String × JSONValue))

/-- JSON string escaping for the serialized query (quote and backslash;
other characters pass through verbatim). -/
def escapeJSONString (s : String) : String :=
  String.mk (s.data.flatMap fun c =>
    if c = '"' then ['\\', '"']
    else if c = '\\' then ['\\', '\\']
    else [c])

/-- A JSON string literal. -/
def printJSONString (s : String) : String :=
  "\"" ++ escapeJSONString s ++ "\""

/-- Modelled from the spec: `llvm::formatv("\x7b0\x7d", toJSON(Params))`
(the `toJSON` overload for `AttrPathCompleteParams` is not part of the
excerpt) — "a serialization, treated as a black box, of the exact
query used (scope + prefix)".  It is rendered as the compact JSON object
`\x7b"Prefix":…,"Scope":[…]\x7d` with the keys in the sorted order
`llvm::json` prints. -/
def serializeParams (Params : AttrPathCompleteParams) : String :=
  "\x7b\"Prefix\":" ++ printJSONString Params.Pfx ++ ",\"Scope\":[" ++
    String.intercalate "," (Params.Scope.map printJSONString) ++ "]\x7d"

/-- `NixpkgsCompletionProvider::completePackages`.  `Resp` is the reply
the evaluator's callback delivers for the query that was sent.  Note the
source builds `Params` with `std::move(Scope), std::move(Prefix)` and
only afterwards tests `Name.starts_with(Prefix)`: the local `Prefix` has
been moved from at that point and is the empty string (libstdc++ and
libc++ both leave a moved-from `std::string` empty), which `movedPfx`
makes explicit.  On an error reply the failure is logged and `Names`
stays empty. -/
def NixpkgsCompletionProvider.completePackages (Scope : List String)
    (Pfx : String) (Resp : Except EvalError (List String))
    (Items : List CompletionItem) :
    Except (List CompletionItem) (List CompletionItem) :=
  let Params : AttrPathCompleteParams := { Scope := Scope, Pfx := Pfx }
  let movedPfx : String := ""
  let Names : List String :=
    match Resp with
    | .ok ns => ns
    | .error _ => []
  Names.foldlM (fun Items Name =>
    if strStartsWith Name movedPfx then
      addItem Items { label := Name, kind := .Field,
                      data := serializeParams Params }
    else .ok Items) Items

/-- `PackageDescription` (also the payload of `AttrPathInfoResponse`):
optional description, long description and version of one attribute. -/
structure PackageDescription where
  Description : Option String := none
  LongDescription : Option String := none
  Version : Option String := none
deriving DecidableEq

/-- The description a reply carries: the value on success, the
default-constructed `PackageDescription` on an error reply (the callback
only assigns `Desc` when `Resp` holds a value). -/
def pkgDescOf (Resp : Except EvalError PackageDescription) :
    PackageDescription :=
  match Resp with
  | .ok d => d
  | .error _ => {}

/-- `NixpkgsCompletionProvider::resolvePackage`.  `attrpathInfo` stands
for the external evaluator's reply to an `attrPathInfo` query; the
C++ appends `Name` to `Scope` and queries that full path. -/
def NixpkgsCompletionProvider.resolvePackage
    (attrpathInfo : List String → Except EvalError PackageDescription)
    (Scope : List String) (Name : String) (Item : CompletionItem) :
    CompletionItem :=
  let Desc := pkgDescOf (attrpathInfo (Scope ++ [Name]))
  { Item with
    documentation := some
      { kind := .Markdown,
        value := Desc.Description.getD "" ++ "\n\n" ++
                 Desc.LongDescription.getD "" },
    detail := Desc.Version.getD "?" }

/-- Skip JSON whitespace. -/
def skipWs : List Char → List Char
  | [] => []
  | c :: cs =>
    if c = ' ' ∨ c = '\n' ∨ c = '\t' ∨ c = '\r' then skipWs cs
    else c :: cs

/-- Parse the body of a JSON string literal, after the opening quote;
returns the decoded string and the input remaining after the closing
quote. -/
def parseJSONStringBody : List Char → Option (String × List Char)
  | [] => none
  | '"' :: cs => some ("", cs)
  | '\\' :: c :: cs =>
    match
      (if c = '"' then some "\""
       else if c = '\\' then some "\\"
       else if c = '/' then some "/"
       else if c = 'n' then some "\n"
       else if c = 't' then some "\t"
       else if c = 'r' then some "\r"
       else none) with
    | none => none
    | some esc =>
      match parseJSONStringBody cs with
      | none => none
      | some (rest, cs1) => some (esc ++ rest, cs1)
  | c :: cs =>
    match parseJSONStringBody cs with
    | none => none
    | some (rest, cs1) => some (String.singleton c ++ rest, cs1)

/-- Split leading decimal digits from the input. -/
def takeDigits : List Char → List Char × List Char
  | [] => ([], [])
  | c :: cs =>
    if c.isDigit then
      let (ds, r) := takeDigits cs
      (c :: ds, r)
    else ([], c :: cs)

/-- Decimal digits to a natural number. -/
def digitsToNat (ds : List Char) : Nat :=
  ds.foldl (fun n c => n * 10 + (c.toNat - 48)) 0

mutual

/-- Parse one JSON value (integral numbers only); `fuel` bounds the
recursion depth and is chosen larger than the input length at the top
level. -/
def parseJSONValue : Nat → List Char → Option (JSONValue × List Char)
  | 0, _ => none
  | fuel + 1, cs =>
    match skipWs cs with
    | 'n' :: 'u' :: 'l' :: 'l' :: r => some (.null, r)
    | 't' :: 'r' :: 'u' :: 'e' :: r => some (.bool true, r)
    | 'f' :: 'a' :: 'l' :: 's' :: 'e' :: r => some (.bool false, r)
    | '"' :: r =>
      match parseJSONStringBody r with
      | none => none
      | some (s, r1) => some (.str s, r1)
    | '[' :: r =>
      (match skipWs r with
       | ']' :: r1 => some (.arr [], r1)
       | r1 => parseJSONElems fuel r1 [])
    | '\x7b' :: r =>
      (match skipWs r with
       | '\x7d' :: r1 => some (.obj [], r1)
       | r1 => parseJSONMembers fuel r1 [])
    | '-' :: r =>
      (match takeDigits r with
       | ([], _) => none
       | (ds, r1) => some (.num (-(digitsToNat ds : Int)), r1))
    | c :: r =>
      if c.isDigit then
        match takeDigits (c :: r) with
        | (ds, r1) => some (.num (digitsToNat ds : Int), r1)
      else none
    | [] => none

/-- Parse the elements of a non-empty JSON array, accumulating into
`acc`. -/
def parseJSONElems (fuel : Nat) (cs : List Char) (acc : List JSONValue) :
    Option (JSONValue × List Char) :=
  match fuel with
  | 0 => none
  | fuel + 1 =>
    match parseJSONValue fuel cs with
    | none => none
    | some (v, r) =>
      match skipWs r with
      | ',' :: r1 => parseJSONElems fuel r1 (acc ++ [v])
      | ']' :: r1 => some (.arr (acc ++ [v]), r1)
      | _ => none

/-- Parse the members of a non-empty JSON object, accumulating into
`acc`. -/
def parseJSONMembers (fuel : Nat) (cs : List Char)
    (acc : List (String × JSONValue)) : Option (JSONValue × List Char) :=
  match fuel with
  | 0 => none
  | fuel + 1 =>
    match skipWs cs with
    | '"' :: r =>
      (match parseJSONStringBody r with
       | none => none
       | some (k, r1) =>
         match skipWs r1 with
         | ':' :: r2 =>
           (match parseJSONValue fuel r2 with
            | none => none
            | some (v, r3) =>
              match skipWs r3 with
              | ',' :: r4 => parseJSONMembers fuel r4 (acc ++ [(k, v)])
              | '\x7d' :: r4 => some (.obj (acc ++ [(k, v)]), r4)
              | _ => none)
         | _ => none)
    | _ => none

end

/-- Modelled from the spec: `llvm::json::parse` (the JSON library is an
external collaborator; `data` is a black-box serialization parsed back
on resolve).  Accepts exactly the strings denoting one JSON value,
returns an error for malformed input. -/
def jsonParse (s : String) : Except String JSONValue :=
  match parseJSONValue (s.length + 1) s.data with
  | some (v, r) =>
    if skipWs r = [] then .ok v else .error "Invalid JSON value"
  | none => .error "Invalid JSON value"

/-- Look up a key in a JSON object's field list. -/
def lookupJSONKey (k : String) : List (String × JSONValue) →
    Option JSONValue
  | [] => none
  | (k1, v) :: fs => if k1 = k then some v else lookupJSONKey k fs

/-- A JSON string value. -/
def asJSONString : JSONValue → Option String
  | .str s => some s
  | _ => none

/-- A JSON array of strings. -/
def asJSONStringArray : JSONValue → Option (List String)
  | .arr xs => xs.mapM asJSONString
  | _ => none

/-- Modelled from the spec: `fromJSON` for `AttrPathCompleteParams`
(declared outside the excerpt) — decodes the object shape produced by
`serializeParams` (`Scope`: array of strings, `Prefix`: string) and
fails on any other shape. -/
def fromJSONAttrPathCompleteParams (v : JSONValue) :
    Option AttrPathCompleteParams :=
  match v with
  | .obj fields =>
    match lookupJSONKey "Scope" fields with
    | none => none
    | some sv =>
      match asJSONStringArray sv with
      | none => none
      | some scope =>
        match lookupJSONKey "Prefix" fields with
        | none => none
        | some pv =>
          match asJSONString pv with
          | none => none
          | some pfx => some { Scope := scope, Pfx := pfx }
  | _ => none

/-- Everything about one completion request that the external
collaborators hand to `Controller::onCompletion` once the AST is
available: the node `AST->descend(\x7bPos, Pos\x7d)` resolved at the cursor,
the environment chain `upEnv` for it, the `havePackageScope` predicate's
verdict, the `getScopeAndPrefix` result, and the reply the external
evaluator would deliver to an `attrPathComplete` query. -/
structure DescNode where
  node : Node
  env : EnvChain
  packageScope : Bool
  scope : List String
  nixPfx : String
  reply : Except EvalError (List String)

/-- The `try` block of `Controller::onCompletion`: local completions
first, then — only inside a package scope — the nixpkgs completions,
sharing one accumulator. -/
def Controller.collectRun (d : DescNode) :
    Except (List CompletionItem) (List CompletionItem) := do
  let Items ← VLACompletionProvider.complete d.node [] d.env
  if d.packageScope then
    NixpkgsCompletionProvider.completePackages d.scope d.nixPfx d.reply Items
  else
    pure Items

/-- `Controller::onCompletion`, from the point where the translation
unit and AST are available: a `none` node (the cursor resolves to no AST
node) is a terminal error; otherwise the collection runs and a caught
`ExceedSizeError` becomes `isIncomplete = true`, keeping the items
gathered so far. -/
def Controller.onCompletion : Option DescNode → Except String CompletionList
  | none => .error "cannot find corresponding node on given position"
  | some d =>
    match Controller.collectRun d with
    | .ok Items => .ok { isIncomplete := false, items := Items }
    | .error Items => .ok { isIncomplete := true, items := Items }

/-- `Controller::onCompletionItemResolve`.  Empty `data` is replied
unchanged; `data` that is not valid JSON is a terminal error; otherwise
the C++ ignores `fromJSON`'s success flag, so on a shape mismatch `Req`
keeps its default-constructed value (empty scope, empty prefix) and the
item is still enriched via `resolvePackage`. -/
def Controller.onCompletionItemResolve (Params : CompletionItem)
    (attrpathInfo : List String → Except EvalError PackageDescription) :
    Except String CompletionItem :=
  if Params.data = "" then .ok Params
  else
    match jsonParse Params.data with
    | .error e => .error e
    | .ok v =>
      let Req : AttrPathCompleteParams :=
        (fromJSONAttrPathCompleteParams v).getD { Scope := [], Pfx := "" }
      let Resp := NixpkgsCompletionProvider.resolvePackage attrpathInfo
        Req.Scope Params.label Params
      .ok Resp

/-- The scanning loop of `simpleFormat` (libnixf `Diagnostic.cpp`): on
`\x7b\x7d` emit `Args[ArgIdx++]` and advance two characters, otherwise copy
the character.  `Args[ArgIdx]` is `std::vector::operator[]`, which is
out of bounds — undefined behavior, modelled as `none` — when `ArgIdx`
is past the end.  A `'\x7b'` at the very end of the format string reads the
NUL terminator as its successor, which is not `'\x7d'`, so it is copied
verbatim (covered by the catch-all case). -/
def simpleFormatGo (Args : List String) : List Char → Nat → Option String
  | [], _ => some ""
  | [c], _ => some (String.singleton c)
  | c :: c2 :: rest, ArgIdx =>
    if c = '\x7b' ∧ c2 = '\x7d' then
      match Args[ArgIdx]? with
      | none => none
      | some a =>
        match simpleFormatGo Args rest (ArgIdx + 1) with
        | none => none
        | some r => some (a ++ r)
    else
      match simpleFormatGo Args (c2 :: rest) ArgIdx with
      | none => none
      | some r => some (String.singleton c ++ r)

/-- `simpleFormat(Fmt, Args)`. -/
def simpleFormat (Fmt : String) (Args : List String) : Option String :=
  simpleFormatGo Args Fmt.data 0

/-- `PartialDiagnostic` (the name avoids a keyword clash): the
table-driven `message()` text together with the argument vector. -/
structure PDiagnostic where
  message : String
  Args : List String

/-- `PartialDiagnostic::format()`. -/
def PDiagnostic.format (d : PDiagnostic) : Option String :=
  simpleFormat d.message d.Args

/-! Specification-side functions, written from the spec's words, to be
compared with the embedded code. -/

/-- Number of `\x7b\x7d` placeholder occurrences, counted by the same
non-overlapping left-to-right scan the formatter performs. -/
def countPlaceholders : List Char → Nat
  | [] => 0
  | [_] => 0
  | c :: c2 :: rest =>
    if c = '\x7b' ∧ c2 = '\x7d' then countPlaceholders rest + 1
    else countPlaceholders (c2 :: rest)

/-- The substitution the spec describes: the i-th `\x7b\x7d` occurrence is
replaced by the i-th argument, every other character is copied
verbatim. -/
def renderFormat : List Char → List String → String
  | [], _ => ""
  | [c], _ => String.singleton c
  | c :: c2 :: rest, as =>
    if c = '\x7b' ∧ c2 = '\x7d' then
      match as with
      | a :: as1 => a ++ renderFormat rest as1
      | [] => renderFormat rest []
    else String.singleton c ++ renderFormat (c2 :: rest) as

/-- All bindings reachable from a scope, ancestor-first: the parent
chain's bindings, then the scope's own, in entry order. -/
def allDefs : EnvChain → List (String × Definition)
  | [] => []
  | ds :: parent => allDefs parent ++ ds

/-- A binding the Scope Completion Provider surfaces for a query: its
name does not begin with `__` and starts with the query text. -/
def defMatches (Pfx : String) (e : String × Definition) : Bool :=
  !strStartsWith e.1 "__" && strStartsWith e.1 Pfx

/-- The completion item `collectDef` builds for a binding. -/
def mkItem (e : String × Definition) : CompletionItem :=
  { label := e.1, kind := getCompletionItemKind e.2 }

/-- The completion item `completePackages` builds for a candidate
name. -/
def mkFieldItem (Params : AttrPathCompleteParams) (Name : String) :
    CompletionItem :=
  { label := Name, kind := .Field, data := serializeParams Params }

/-- Whether an `Except` computation ended in the error branch (the C++
exception propagated). -/
def exceptErrored : Except (List CompletionItem) (List CompletionItem) → Bool
  | .error _ => true
  | .ok _ => false

/-- Push items one by one through `addItem` (the bounded-collection
policy applied to a whole list): stop at the first rejection. -/
def pushAll : List CompletionItem → List CompletionItem →
    Except (List CompletionItem) (List CompletionItem)
  | Items, [] => .ok Items
  | Items, x :: xs =>
    match addItem Items x with
    | .error E => .error E
    | .ok I => pushAll I xs

/-- The candidate names an `attrPathComplete` reply delivers: the list
on success, nothing on failure. -/
def namesOf (Resp : Except EvalError (List String)) : List String :=
  match Resp with
  | .ok ns => ns
  | .error _ => []

/-- The items the Scope Completion Provider would emit for a request,
unbounded: the matching bindings, ancestor scopes first. -/
def localItems (d : DescNode) : List CompletionItem :=
  ((allDefs d.env).filter (defMatches (vlaPfx d.node))).map mkItem

/-- The items the External Completion Provider would emit for a
request, unbounded: every candidate name of the evaluator's reply (see
the use-after-move note on `completePackages`: the moved-from filter
lets them all through), wrapped as Field items carrying the serialized
query. -/
def fieldItems (d : DescNode) : List CompletionItem :=
  (namesOf d.reply).map
    (mkFieldItem { Scope := d.scope, Pfx := d.nixPfx })

/-! Concrete fixtures used by witnesses and counterexamples. -/

/-- The scope of the chain `outer\x7bx\x7d`: one binding `x` (a user
definition). -/
def outerScope : ScopeDefs := [("x", { isBuiltin := false })]

/-- The chain `outer\x7bx\x7d → inner\x7bx\x7d` seen from `inner`: the inner scope
also binds `x`, and its parent is the outer scope. -/
def innerChain : EnvChain := [[("x", { isBuiltin := false })], outerScope]

/-- A chain of one root scope with 31 bindings `a0` … `a30`, all
matching the empty query text. -/
def bigEnv : EnvChain :=
  [(List.range 31).map fun i => ("a" ++ toString i, { isBuiltin := false })]

/-- A completion request at a non-identifier node over `bigEnv`, not in
a package scope. -/
def bigDesc : DescNode :=
  { node := .ExprAttrs, env := bigEnv, packageScope := false,
    scope := [], nixPfx := "", reply := .ok [] }

/-- The list `onCompletion` produces for `bigDesc`: the first 30 of the
31 matching bindings, marked incomplete. -/
def bigList : CompletionList :=
  { isIncomplete := true,
    items := (List.range 30).map fun i =>
      { label := "a" ++ toString i, kind := .Variable } }

/-- An evaluator stub whose `attrPathInfo` reply is always the empty
description. -/
def constInfo : List String → Except EvalError PackageDescription :=
  fun _ => .ok {}

/-- An evaluator stub with a version and a description. -/
def richInfo : List String → Except EvalError PackageDescription :=
  fun _ => .ok { Description := some "desc", LongDescription := none,
                 Version := some "1.0" }

/-- A resolvable item, carrying the serialization of the query
`⟨["pkgs"], "he"⟩` that produced it. -/
def resolvableItem : CompletionItem :=
  { label := "hello", kind := .Field,
    data := serializeParams { Scope := ["pkgs"], Pfx := "he" } }

/-! Lemmas about the bounded accumulator. -/

/-- Matching a name against the empty query text always succeeds. -/
theorem strStartsWith_empty (s : String) : strStartsWith s "" = true := by
  simp [strStartsWith]

/-- Closed form of pushing a list through the bounded accumulator: if
everything fits the items are appended, otherwise the first rejection
aborts with exactly the items that fit. -/
theorem pushAll_spec (xs : List CompletionItem) :
    ∀ Items : List CompletionItem, Items.length ≤ MaxCompletionSize →
      pushAll Items xs =
        if Items.length + xs.length ≤ MaxCompletionSize then
          .ok (Items ++ xs)
        else
          .error (Items ++ xs.take (MaxCompletionSize - Items.length)) := by
  induction xs with
  | nil =>
    intro Items h
    simp [pushAll, h]
  | cons x xs ih =>
    intro Items h
    rcases Nat.lt_or_ge Items.length MaxCompletionSize with hlt | hge
    · have hadd : addItem Items x = .ok (Items ++ [x]) := by
        simp [addItem, Nat.not_le.mpr hlt]
      rw [pushAll, hadd]
      show pushAll (Items ++ [x]) xs = _
      rw [ih (Items ++ [x]) (by simp; omega)]
      by_cases hc : Items.length + (x :: xs).length ≤ MaxCompletionSize
      · rw [if_pos (by simp at hc ⊢; omega), if_pos (by simpa using hc)]
        simp
      · rw [if_neg (by simp at hc ⊢; omega), if_neg (by simpa using hc)]
        have htk : MaxCompletionSize - Items.length =
            (MaxCompletionSize - (Items.length + 1)) + 1 := by omega
        simp [htk, List.take_succ_cons]
    · have h30 : Items.length = MaxCompletionSize := Nat.le_antisymm h hge
      have hadd : addItem Items x = .error Items := by
        simp [addItem, hge]
      rw [pushAll, hadd]
      show Except.error Items = _
      rw [if_neg (by simp; omega)]
      simp [h30]

/-- On success the accumulator appended everything, so the bound is
kept. -/
theorem pushAll_ok_length (xs Items r : List CompletionItem)
    (h : Items.length ≤ MaxCompletionSize)
    (hr : pushAll Items xs = .ok r) : r.length ≤ MaxCompletionSize := by
  rw [pushAll_spec xs Items h] at hr
  by_cases hc : Items.length + xs.length ≤ MaxCompletionSize
  · rw [if_pos hc] at hr
    cases hr
    simpa using hc
  · rw [if_neg hc] at hr
    cases hr

/-- A rejection happens exactly at the bound: the error carries exactly
`MaxCompletionSize` items. -/
theorem pushAll_error_length (xs Items e : List CompletionItem)
    (h : Items.length ≤ MaxCompletionSize)
    (he : pushAll Items xs = .error e) : e.length = MaxCompletionSize := by
  rw [pushAll_spec xs Items h] at he
  by_cases hc : Items.length + xs.length ≤ MaxCompletionSize
  · rw [if_pos hc] at he
    cases he
  · rw [if_neg hc] at he
    cases he
    simp
    omega

/-- Pushing a concatenation pushes the two parts in sequence. -/
theorem pushAll_append (xs ys : List CompletionItem) :
    ∀ Items, pushAll Items (xs ++ ys) =
      match pushAll Items xs with
      | .error E => .error E
      | .ok I => pushAll I ys := by
  induction xs with
  | nil => intro Items; rfl
  | cons x xs ih =>
    intro Items
    rw [List.cons_append]
    cases ha : addItem Items x with
    | error E => simp [pushAll, ha]
    | ok I => simp [pushAll, ha]; exact ih I

/-- The loop of `collectDef` over one scope's own bindings pushes
exactly the items of the matching bindings. -/
theorem foldlM_collectEntry_eq (Pfx : String) (ds : ScopeDefs) :
    ∀ Items, ds.foldlM (collectEntry Pfx) Items =
      pushAll Items ((ds.filter (defMatches Pfx)).map mkItem) := by
  induction ds with
  | nil => intro Items; rfl
  | cons e ds ih =>
    intro Items
    cases h1 : strStartsWith e.1 "__" with
    | true =>
      have hce : collectEntry Pfx Items e = .ok Items := by
        simp [collectEntry, h1]
      have hfm : defMatches Pfx e = false := by simp [defMatches, h1]
      rw [List.foldlM_cons, hce, List.filter_cons, hfm]
      show List.foldlM (collectEntry Pfx) Items ds = _
      simp only [Bool.false_eq_true, if_false]
      exact ih Items
    | false =>
      cases h2 : strStartsWith e.1 Pfx with
      | false =>
        have hce : collectEntry Pfx Items e = .ok Items := by
          simp [collectEntry, h1, h2]
        have hfm : defMatches Pfx e = false := by simp [defMatches, h1, h2]
        rw [List.foldlM_cons, hce, List.filter_cons, hfm]
        show List.foldlM (collectEntry Pfx) Items ds = _
        simp only [Bool.false_eq_true, if_false]
        exact ih Items
      | true =>
        have hce : collectEntry Pfx Items e = addItem Items (mkItem e) := by
          simp [collectEntry, h1, h2, mkItem]
        have hfm : defMatches Pfx e = true := by simp [defMatches, h1, h2]
        rw [List.foldlM_cons, hce, List.filter_cons, hfm]
        simp only [if_true, List.map_cons]
        cases ha : addItem Items (mkItem e) with
        | error E => simp only [ha, pushAll]; rfl
        | ok I =>
          simp only [ha, pushAll]
          show List.foldlM (collectEntry Pfx) I ds = _
          exact ih I

/-- The loop of `completePackages` pushes an item for every candidate
name (the moved-from filter string is empty, so every name passes). -/
theorem foldlM_packages_eq (Params : AttrPathCompleteParams)
    (ns : List String) :
    ∀ Items, ns.foldlM (fun Items Name =>
        if strStartsWith Name "" then
          addItem Items { label := Name, kind := .Field,
                          data := serializeParams Params }
        else .ok Items) Items =
      pushAll Items (ns.map (mkFieldItem Params)) := by
  induction ns with
  | nil => intro Items; rfl
  | cons n ns ih =>
    intro Items
    rw [List.foldlM_cons]
    rw [if_pos (by rw [strStartsWith_empty])]
    show (addItem Items (mkFieldItem Params n) >>= fun init =>
        ns.foldlM (fun Items Name =>
          if strStartsWith Name "" then
            addItem Items { label := Name, kind := .Field,
                            data := serializeParams Params }
          else .ok Items) init) =
      pushAll Items (mkFieldItem Params n :: ns.map (mkFieldItem Params))
    cases ha : addItem Items (mkFieldItem Params n) with
    | error E =>
      rw [pushAll, ha]
      rfl
    | ok I =>
      rw [pushAll, ha]
      show List.foldlM _ I ns = pushAll I (ns.map (mkFieldItem Params))
      exact ih I

/-- `completePackages` pushes the Field items of all candidate names of
the reply. -/
theorem completePackages_eq (Scope : List String) (Pfx : String)
    (Resp : Except EvalError (List String)) (Items : List CompletionItem) :
    NixpkgsCompletionProvider.completePackages Scope Pfx Resp Items =
      pushAll Items
        ((namesOf Resp).map (mkFieldItem { Scope := Scope, Pfx := Pfx })) := by
  cases Resp with
  | ok ns => exact foldlM_packages_eq { Scope := Scope, Pfx := Pfx } ns Items
  | error e => rfl

/-- `collectDef` pushes exactly the items of the matching bindings of
the whole chain, ancestor scopes first. -/
theorem collectDef_eq (Env : EnvChain) (Pfx : String) :
    ∀ Items, collectDef Env Pfx Items =
      pushAll Items (((allDefs Env).filter (defMatches Pfx)).map mkItem) := by
  induction Env with
  | nil => intro Items; rfl
  | cons ds parent ih =>
    intro Items
    show (collectDef parent Pfx Items >>= fun Items1 =>
      ds.foldlM (collectEntry Pfx) Items1) = _
    rw [ih Items]
    show _ = pushAll Items
      (((allDefs parent ++ ds).filter (defMatches Pfx)).map mkItem)
    rw [List.filter_append, List.map_append, pushAll_append]
    cases hp : pushAll Items (((allDefs parent).filter (defMatches Pfx)).map mkItem) with
    | error E => rfl
    | ok I =>
      show ds.foldlM (collectEntry Pfx) I = _
      exact foldlM_collectEntry_eq Pfx ds I

/-- The collection phase of one completion request: local items pushed
first, then — in a package scope — the field items, through the same
accumulator. -/
theorem collectRun_eq (d : DescNode) :
    Controller.collectRun d =
      match pushAll [] (localItems d) with
      | .error E => .error E
      | .ok I =>
        if d.packageScope then pushAll I (fieldItems d) else .ok I := by
  show (VLACompletionProvider.complete d.node [] d.env >>= fun Items =>
    if d.packageScope then
      NixpkgsCompletionProvider.completePackages d.scope d.nixPfx d.reply Items
    else pure Items) = _
  have hc : VLACompletionProvider.complete d.node [] d.env =
      pushAll [] (localItems d) := by
    show collectDef d.env (vlaPfx d.node) [] = _
    rw [collectDef_eq]
    rfl
  rw [hc]
  cases hp : pushAll [] (localItems d) with
  | error E => rfl
  | ok I =>
    show (if d.packageScope then
        NixpkgsCompletionProvider.completePackages d.scope d.nixPfx d.reply I
      else pure I) =
      (if d.packageScope then pushAll I (fieldItems d) else .ok I)
    by_cases hpk : d.packageScope = true
    · rw [if_pos hpk, if_pos hpk, completePackages_eq]
      rfl
    · rw [if_neg hpk, if_neg hpk]
      rfl

/-- Closed form of the collection phase. -/
theorem collectRun_spec (d : DescNode) :
    Controller.collectRun d =
      if (localItems d).length ≤ MaxCompletionSize then
        if d.packageScope then
          if (localItems d).length + (fieldItems d).length ≤
              MaxCompletionSize then
            .ok (localItems d ++ fieldItems d)
          else
            .error (localItems d ++
              (fieldItems d).take (MaxCompletionSize - (localItems d).length))
        else .ok (localItems d)
      else .error ((localItems d).take MaxCompletionSize) := by
  rw [collectRun_eq]
  rw [pushAll_spec (localItems d) [] (by simp)]
  simp only [List.length_nil, List.nil_append, Nat.zero_add, Nat.sub_zero]
  by_cases h1 : (localItems d).length ≤ MaxCompletionSize
  · rw [if_pos h1, if_pos h1]
    show (if d.packageScope then pushAll (localItems d) (fieldItems d)
      else .ok (localItems d)) = _
    by_cases h2 : d.packageScope = true
    · rw [if_pos h2, if_pos h2, pushAll_spec _ _ h1]
    · rw [if_neg h2, if_neg h2]
  · rw [if_neg h1, if_neg h1]

/-- A successful collection respects the size bound. -/
theorem collectRun_ok_length (d : DescNode) (r : List CompletionItem)
    (h : Controller.collectRun d = .ok r) :
    r.length ≤ MaxCompletionSize := by
  rw [collectRun_spec d] at h
  by_cases h1 : (localItems d).length ≤ MaxCompletionSize
  · rw [if_pos h1] at h
    by_cases h2 : d.packageScope = true
    · rw [if_pos h2] at h
      by_cases h3 : (localItems d).length + (fieldItems d).length ≤
          MaxCompletionSize
      · rw [if_pos h3] at h
        cases h
        simpa using h3
      · rw [if_neg h3] at h
        cases h
    · rw [if_neg h2] at h
      cases h
      exact h1
  · rw [if_neg h1] at h
    cases h

/-- A collection aborted by the accumulator stopped exactly at the
bound. -/
theorem collectRun_error_length (d : DescNode) (e : List CompletionItem)
    (h : Controller.collectRun d = .error e) :
    e.length = MaxCompletionSize := by
  rw [collectRun_spec d] at h
  by_cases h1 : (localItems d).length ≤ MaxCompletionSize
  · rw [if_pos h1] at h
    by_cases h2 : d.packageScope = true
    · rw [if_pos h2] at h
      by_cases h3 : (localItems d).length + (fieldItems d).length ≤
          MaxCompletionSize
      · rw [if_pos h3] at h
        cases h
      · rw [if_neg h3] at h
        cases h
        simp [List.length_take]
        omega
    · rw [if_neg h2] at h
      cases h
  · rw [if_neg h1] at h
    cases h
    simp [List.length_take]
    omega

/-- Too many matching local bindings abort the collection with the
first `MaxCompletionSize` of them. -/
theorem collectRun_overflow (d : DescNode)
    (h : MaxCompletionSize < (localItems d).length) :
    Controller.collectRun d =
      .error ((localItems d).take MaxCompletionSize) := by
  rw [collectRun_spec d]
  rw [if_neg (by omega)]

/-! Lemmas about the diagnostic formatter's scan. -/

/-- Unfolding: the scan at a placeholder. -/
theorem simpleFormatGo_ph (Args : List String) (rest : List Char) (i : Nat) :
    simpleFormatGo Args ('\x7b' :: '\x7d' :: rest) i =
      match Args[i]? with
      | none => none
      | some a =>
        match simpleFormatGo Args rest (i + 1) with
        | none => none
        | some r => some (a ++ r) := by
  simp [simpleFormatGo]

/-- Unfolding: the scan copying one character. -/
theorem simpleFormatGo_copy (Args : List String) (c c2 : Char)
    (rest : List Char) (i : Nat) (h : ¬(c = '\x7b' ∧ c2 = '\x7d')) :
    simpleFormatGo Args (c :: c2 :: rest) i =
      match simpleFormatGo Args (c2 :: rest) i with
      | none => none
      | some r => some (String.singleton c ++ r) := by
  simp [simpleFormatGo, h]

/-- Unfolding: placeholder count at a placeholder. -/
theorem countPlaceholders_ph (rest : List Char) :
    countPlaceholders ('\x7b' :: '\x7d' :: rest) =
      countPlaceholders rest + 1 := by
  simp [countPlaceholders]

/-- Unfolding: placeholder count at a copied character. -/
theorem countPlaceholders_copy (c c2 : Char) (rest : List Char)
    (h : ¬(c = '\x7b' ∧ c2 = '\x7d')) :
    countPlaceholders (c :: c2 :: rest) = countPlaceholders (c2 :: rest) := by
  simp [countPlaceholders, h]

/-- Unfolding: the substitution at a placeholder with an argument
available. -/
theorem renderFormat_ph (rest : List Char) (a : String) (as : List String) :
    renderFormat ('\x7b' :: '\x7d' :: rest) (a :: as) =
      a ++ renderFormat rest as := by
  simp [renderFormat]

/-- Unfolding: the substitution at a copied character. -/
theorem renderFormat_copy (c c2 : Char) (rest : List Char)
    (as : List String) (h : ¬(c = '\x7b' ∧ c2 = '\x7d')) :
    renderFormat (c :: c2 :: rest) as =
      String.singleton c ++ renderFormat (c2 :: rest) as := by
  simp [renderFormat, h]

/-- The scan succeeds below the argument bound — producing the spec's
substitution over the remaining arguments — and hits an out-of-bounds
access above it. -/
theorem simpleFormatGo_spec (Args : List String) :
    ∀ (cs : List Char) (i : Nat),
      (i + countPlaceholders cs ≤ Args.length →
        simpleFormatGo Args cs i = some (renderFormat cs (Args.drop i))) ∧
      (Args.length < i + countPlaceholders cs →
        1 ≤ countPlaceholders cs → simpleFormatGo Args cs i = none)
  | [], i => by
    refine ⟨fun h => rfl, fun h h1 => ?_⟩
    simp [countPlaceholders] at h1
  | [c], i => by
    refine ⟨fun h => rfl, fun h h1 => ?_⟩
    simp [countPlaceholders] at h1
  | c :: c2 :: rest, i => by
    by_cases hp : c = '\x7b' ∧ c2 = '\x7d'
    · obtain ⟨hc, hc2⟩ := hp
      subst hc
      subst hc2
      have ih := simpleFormatGo_spec Args rest (i + 1)
      refine ⟨fun h => ?_, fun h h1 => ?_⟩
      · rw [countPlaceholders_ph] at h
        have hi : i < Args.length := by omega
        rw [simpleFormatGo_ph, List.getElem?_eq_getElem hi,
          ih.1 (by omega), List.drop_eq_getElem_cons hi, renderFormat_ph]
      · rw [countPlaceholders_ph] at h
        rw [simpleFormatGo_ph]
        rcases Nat.lt_or_ge i Args.length with hi | hi
        · rw [List.getElem?_eq_getElem hi, ih.2 (by omega) (by omega)]
        · rw [List.getElem?_eq_none hi]
    · have ih := simpleFormatGo_spec Args (c2 :: rest) i
      refine ⟨fun h => ?_, fun h h1 => ?_⟩
      · rw [countPlaceholders_copy _ _ _ hp] at h
        rw [simpleFormatGo_copy _ _ _ _ _ hp, ih.1 h,
          renderFormat_copy _ _ _ _ hp]
      · rw [countPlaceholders_copy _ _ _ hp] at h h1
        rw [simpleFormatGo_copy _ _ _ _ _ hp, ih.2 h h1]

/-! The claims. -/

/-- C1: evaluated at a reply containing a name that does not start with
the query's prefix, `completePackages` still inserts it (wrapped as a
Field item carrying the serialized query): the `starts_with` filter
compares against the moved-from `Prefix` local, not the prefix the
query was issued with. -/
theorem c1_use_after_move :
    strStartsWith "b" "a" = false ∧
    NixpkgsCompletionProvider.completePackages [] "a" (.ok ["b"]) [] =
      .ok [{ label := "b", kind := .Field,
             data := serializeParams { Scope := [], Pfx := "a" } }] :=
  ⟨rfl, rfl⟩

/-- C2: a returned completion list holds at most `MaxCompletionSize`
(30) items; `isIncomplete` is true exactly when the collection phase was
aborted by the accumulator's rejection, in which case exactly 30 items
were kept; and more than 30 matching local bindings force exactly 30
items with `isIncomplete = true`. -/
theorem c2_size_bound (d : DescNode) (l : CompletionList)
    (h : Controller.onCompletion (some d) = .ok l) :
    l.items.length ≤ MaxCompletionSize ∧
    (l.isIncomplete = true ↔
      exceptErrored (Controller.collectRun d) = true) ∧
    (l.isIncomplete = true → l.items.length = MaxCompletionSize) ∧
    (MaxCompletionSize <
        ((allDefs d.env).filter (defMatches (vlaPfx d.node))).length →
      l.isIncomplete = true ∧ l.items.length = MaxCompletionSize) := by
  simp only [Controller.onCompletion] at h
  split at h
  case h_1 I heq =>
    cases h
    refine ⟨collectRun_ok_length d I heq, ?_, ?_, ?_⟩
    · rw [heq]
      simp [exceptErrored]
    · intro hfalse
      cases hfalse
    · intro hcount
      have hlen : MaxCompletionSize < (localItems d).length := by
        simp only [localItems, List.length_map]
        exact hcount
      have := collectRun_overflow d hlen
      rw [heq] at this
      cases this
  case h_2 E heq =>
    cases h
    refine ⟨?_, ?_, ?_, ?_⟩
    · rw [collectRun_error_length d E heq]
    · rw [heq]
      simp [exceptErrored]
    · intro _
      exact collectRun_error_length d E heq
    · intro _
      exact ⟨rfl, collectRun_error_length d E heq⟩

/-- C2 witness: a request over 31 matching bindings returns exactly 30
items, marked incomplete. -/
theorem c2_size_bound_witness :
    bigList.items.length ≤ MaxCompletionSize ∧
    (bigList.isIncomplete = true ↔
      exceptErrored (Controller.collectRun bigDesc) = true) ∧
    (bigList.isIncomplete = true →
      bigList.items.length = MaxCompletionSize) ∧
    (MaxCompletionSize <
        ((allDefs bigDesc.env).filter (defMatches (vlaPfx bigDesc.node))).length →
      bigList.isIncomplete = true ∧
      bigList.items.length = MaxCompletionSize) :=
  c2_size_bound bigDesc bigList (by rfl)

/-- C3: for any environment chain and query text, `collectDef` emits
exactly the bindings whose name starts with the query text and does not
start with `__`, with every ancestor-scope binding before any
descendant-scope binding (the ancestor-first order of `allDefs`) — the
whole list when it fits the shared bound, its first 30 items with the
accumulator's rejection otherwise. -/
theorem c3_scope_provider_exact (Env : EnvChain) (q : String) :
    collectDef Env q [] =
      if (((allDefs Env).filter (defMatches q)).map mkItem).length ≤
          MaxCompletionSize then
        .ok (((allDefs Env).filter (defMatches q)).map mkItem)
      else
        .error ((((allDefs Env).filter (defMatches q)).map mkItem).take
          MaxCompletionSize) := by
  rw [collectDef_eq, pushAll_spec _ [] (by simp)]
  simp

/-- C5: an error reply from the external evaluator leaves the
accumulator untouched, and a completion request in a package scope
whose evaluator reply fails returns exactly what the same request
outside the package scope returns (local items only, `isIncomplete`
unaffected by the failure). -/
theorem c5_external_failure (Scope : List String) (Pfx : String)
    (e1 e2 : EvalError) (Items : List CompletionItem) (d : DescNode) :
    NixpkgsCompletionProvider.completePackages Scope Pfx (.error e1) Items =
      .ok Items ∧
    Controller.onCompletion
        (some { d with packageScope := true, reply := .error e2 }) =
      Controller.onCompletion (some { d with packageScope := false }) := by
  refine ⟨rfl, ?_⟩
  have hc : Controller.collectRun
      { d with packageScope := true, reply := .error e2 } =
      Controller.collectRun { d with packageScope := false } := by
    rw [collectRun_spec, collectRun_spec]
    simp [localItems, fieldItems, namesOf]
    by_cases hA : (List.filter (defMatches (vlaPfx d.node))
        (allDefs d.env)).length ≤ MaxCompletionSize
    · simp [hA]
    · simp [hA]
  simp only [Controller.onCompletion, hc]

/-- C6: `resolvePackage` fills `detail` with the reply's version — the
placeholder `"?"` when the version is absent — and `documentation` with
the markdown concatenation of description and long description, each
absent field rendering as the empty string; the item's label is kept. -/
theorem c6_resolvePackage_fields
    (attrpathInfo : List String → Except EvalError PackageDescription)
    (Scope : List String) (Name : String) (Item : CompletionItem) :
    (∀ v, (pkgDescOf (attrpathInfo (Scope ++ [Name]))).Version = some v →
      (NixpkgsCompletionProvider.resolvePackage attrpathInfo Scope Name
        Item).detail = v) ∧
    ((pkgDescOf (attrpathInfo (Scope ++ [Name]))).Version = none →
      (NixpkgsCompletionProvider.resolvePackage attrpathInfo Scope Name
        Item).detail = "?") ∧
    (NixpkgsCompletionProvider.resolvePackage attrpathInfo Scope Name
        Item).documentation = some
      { kind := .Markdown,
        value :=
          (pkgDescOf (attrpathInfo (Scope ++ [Name]))).Description.getD ""
            ++ "\n\n" ++
          (pkgDescOf (attrpathInfo (Scope ++ [Name]))).LongDescription.getD
            "" } ∧
    (NixpkgsCompletionProvider.resolvePackage attrpathInfo Scope Name
        Item).label = Item.label := by
  refine ⟨fun v hv => ?_, fun hv => ?_, rfl, rfl⟩
  · simp [NixpkgsCompletionProvider.resolvePackage, hv]
  · simp [NixpkgsCompletionProvider.resolvePackage, hv]

/-- C6 witness: an empty description resolves to the `"?"` placeholder
version. -/
theorem c6_resolvePackage_fields_witness :
    (pkgDescOf (constInfo (["pkgs"] ++ ["hello"]))).Version = none ∧
    (NixpkgsCompletionProvider.resolvePackage constInfo ["pkgs"] "hello"
      { label := "hello" }).detail = "?" :=
  ⟨rfl, (c6_resolvePackage_fields constInfo ["pkgs"] "hello"
    { label := "hello" }).2.1 rfl⟩

/-- C7: with the chain `outer binding x → inner binding x` and the
empty query text, completion yields the item labelled `x` twice —
shadowed names are not deduplicated. -/
theorem c7_shadowing_duplicate :
    VLACompletionProvider.complete .ExprAttrs [] innerChain =
      .ok [{ label := "x", kind := .Variable },
           { label := "x", kind := .Variable }] :=
  rfl

/-- C8: when the cursor position resolves to no AST node the request
fails with the "no corresponding node" error and no completion list is
produced. -/
theorem c8_no_node_error :
    Controller.onCompletion none =
      .error "cannot find corresponding node on given position" :=
  rfl

/-- C9: the query text is the literal identifier text when the node
under the cursor is an identifier, and the empty string — every
reachable non-internal binding matches — for every other node kind. -/
theorem c9_query_text (Desc : Node) (Env : EnvChain)
    (Items : List CompletionItem) :
    (∀ s, Desc = Node.Identifer s →
      VLACompletionProvider.complete Desc Items Env =
        collectDef Env s Items) ∧
    (Desc.kind ≠ NodeKind.NK_Identifer →
      VLACompletionProvider.complete Desc Items Env =
        collectDef Env "" Items ∧
      (allDefs Env).filter (defMatches "") =
        (allDefs Env).filter (fun e => !strStartsWith e.1 "__")) := by
  constructor
  · intro s hs
    subst hs
    rfl
  · intro hk
    constructor
    · cases Desc with
      | Identifer s => exact absurd rfl hk
      | ExprVar s => rfl
      | ExprString s => rfl
      | ExprAttrs => rfl
    · apply List.filter_congr
      intro e _
      simp [defMatches, strStartsWith_empty]

/-- C9 witness: a non-identifier node completes with the empty query
text; an identifier node completes with its literal text. -/
theorem c9_query_text_witness :
    VLACompletionProvider.complete (.ExprVar "foo") [] innerChain =
      collectDef innerChain "" [] ∧
    VLACompletionProvider.complete (.Identifer "x") [] innerChain =
      collectDef innerChain "x" [] :=
  ⟨((c9_query_text (.ExprVar "foo") innerChain []).2 (by decide)).1,
   (c9_query_text (.Identifer "x") innerChain []).1 "x" rfl⟩

/-- C4 counterexample: the item data `"42"` parses as JSON but is not a
serialized `ScopeQuery` (its decode fails), yet `onCompletionItemResolve`
does not return an error — `fromJSON`'s success flag is ignored and a
filled item (placeholder detail, markdown documentation) is replied. -/
theorem c4_resolve_counterexample :
    jsonParse "42" = .ok (.num 42) ∧
    fromJSONAttrPathCompleteParams (.num 42) = none ∧
    Controller.onCompletionItemResolve
        { label := "x", kind := .Field, data := "42" } constInfo =
      .ok { label := "x", kind := .Field, detail := "?",
            documentation := some { kind := .Markdown, value := "\n\n" },
            data := "42" } :=
  ⟨rfl, rfl, rfl⟩

/-- C4 (amended): resolve on empty `data` replies the item unchanged;
on `data` that is not valid JSON it replies the parse error; on `data`
whose JSON decodes to a `ScopeQuery` it replies the item enriched via
`resolvePackage` for the recovered scope and the item's label; and on
valid JSON that is not a `ScopeQuery` it silently falls back to the
default (empty) query instead of erroring. -/
theorem c4_resolve_amended (item : CompletionItem)
    (info : List String → Except EvalError PackageDescription) :
    (item.data = "" →
      Controller.onCompletionItemResolve item info = .ok item) ∧
    (∀ e, item.data ≠ "" → jsonParse item.data = .error e →
      Controller.onCompletionItemResolve item info = .error e) ∧
    (∀ v q, item.data ≠ "" → jsonParse item.data = .ok v →
      fromJSONAttrPathCompleteParams v = some q →
      Controller.onCompletionItemResolve item info =
        .ok (NixpkgsCompletionProvider.resolvePackage info q.Scope
          item.label item)) ∧
    (∀ v, item.data ≠ "" → jsonParse item.data = .ok v →
      fromJSONAttrPathCompleteParams v = none →
      Controller.onCompletionItemResolve item info =
        .ok (NixpkgsCompletionProvider.resolvePackage info []
          item.label item)) := by
  refine ⟨fun h => ?_, fun e hne hp => ?_, fun v q hne hp hq => ?_,
    fun v hne hp hq => ?_⟩
  · simp [Controller.onCompletionItemResolve, h]
  · simp [Controller.onCompletionItemResolve, hne, hp]
  · simp [Controller.onCompletionItemResolve, hne, hp, hq]
  · simp [Controller.onCompletionItemResolve, hne, hp, hq]

/-- C4 witness: an item carrying the serialization of the query
`⟨["pkgs"], "he"⟩` resolves to the enriched copy for that scope. -/
theorem c4_resolve_witness :
    resolvableItem.data ≠ "" ∧
    Controller.onCompletionItemResolve resolvableItem richInfo =
      .ok (NixpkgsCompletionProvider.resolvePackage richInfo ["pkgs"]
        resolvableItem.label resolvableItem) :=
  ⟨by decide,
   (c4_resolve_amended resolvableItem richInfo).2.2.1
     (.obj [("Prefix", .str "he"), ("Scope", .arr [.str "pkgs"])])
     { Scope := ["pkgs"], Pfx := "he" } (by decide) (by rfl) (by rfl)⟩

/-- C10: `simpleFormat` (and hence `PartialDiagnostic::format`) stays
in bounds exactly when the format string holds at most as many `\x7b\x7d`
placeholders as there are arguments, and then returns the format string
with the i-th placeholder replaced by the i-th argument and every other
character — including a `\x7b` not followed by `\x7d` — copied verbatim;
with fewer arguments the argument indexing goes out of bounds. -/
theorem c10_simpleFormat_total (Fmt : String) (Args : List String) :
    ((simpleFormat Fmt Args).isSome = true ↔
      countPlaceholders Fmt.data ≤ Args.length) ∧
    (countPlaceholders Fmt.data ≤ Args.length →
      simpleFormat Fmt Args = some (renderFormat Fmt.data Args)) ∧
    (∀ d : PDiagnostic, countPlaceholders d.message.data ≤ d.Args.length →
      PDiagnostic.format d = some (renderFormat d.message.data d.Args)) := by
  have hspec := simpleFormatGo_spec Args Fmt.data 0
  have hok : countPlaceholders Fmt.data ≤ Args.length →
      simpleFormat Fmt Args = some (renderFormat Fmt.data Args) := by
    intro h
    show simpleFormatGo Args Fmt.data 0 = _
    rw [hspec.1 (by omega)]
    rw [List.drop_zero]
  refine ⟨?_, hok, ?_⟩
  · constructor
    · intro hsome
      by_contra hgt
      rw [Nat.not_le] at hgt
      have hnone : simpleFormat Fmt Args = none :=
        hspec.2 (by omega) (by omega)
      rw [hnone] at hsome
      cases hsome
    · intro h
      rw [hok h]
      rfl
  · intro d h
    have hd := simpleFormatGo_spec d.Args d.message.data 0
    show simpleFormatGo d.Args d.message.data 0 = _
    rw [hd.1 (by omega), List.drop_zero]

/-- C10 witness: one placeholder, one argument — the placeholder is
substituted and the trailing lone brace is copied verbatim. -/
theorem c10_simpleFormat_total_witness :
    countPlaceholders "a\x7b\x7db\x7b".data ≤ ["X"].length ∧
    simpleFormat "a\x7b\x7db\x7b" ["X"] =
      some (renderFormat "a\x7b\x7db\x7b".data ["X"]) :=
  ⟨by decide, (c10_simpleFormat_total "a\x7b\x7db\x7b" ["X"]).2.1 (by decide)⟩
